import Mathlib

/-!
Shallow embedding of darklua's rule configuration codec
(src/rules/mod.rs) and of the `LocalAssignStatement` code generation
(src/nodes/statements/local_assign.rs), with the theorems settling the
specification claims about them.

Conventions of the embedding:
* Rust `HashMap<String, RulePropertyValue>` is modelled as an
  association list with unique keys; the list order stands for the
  map's (unspecified) iteration order, so theorems quantify over it.
* serde's data model is modelled by `Document` (the parsed document
  tree handed to `deserialize_any`); a map document is a list of
  key/value entries in document order, which may repeat keys (that is
  how a duplicate field reaches the deserializer at all).
* serde errors are modelled structurally by `DecodeError`, one
  constructor per `serde::de::Error` constructor the code invokes.
-/

/-- Property values, `enum RulePropertyValue` (src/rules/mod.rs, lines
18-23): a weakly-typed value that is either a string or a usize.
Machine integers are modelled as `Nat` (no arithmetic is performed on
them). -/
inductive RulePropertyValue
  | string (s : String)
  | usize (n : Nat)
  deriving DecidableEq, Repr

/-- `type RuleProperties = HashMap<String, RulePropertyValue>`
(src/rules/mod.rs, line 48), modelled as an association list with
unique keys, in iteration order. -/
abbrev RuleProperties := List (String × RulePropertyValue)

/-- `enum RuleConfigurationError` (src/rules/mod.rs, lines 27-36). -/
inductive RuleConfigurationError
  | UnexpectedProperty (property : String)
  | StringExpected (property : String)
  | UsizeExpected (property : String)
  deriving DecidableEq, Repr

/-- The `Display` implementation for `RuleConfigurationError`
(src/rules/mod.rs, lines 38-46). -/
def RuleConfigurationError.display : RuleConfigurationError → String
  | .UnexpectedProperty property => "unexpected field " ++ "'" ++ property ++ "'"
  | .StringExpected property => "string value expected for field " ++ "'" ++ property ++ "'"
  | .UsizeExpected property => "unsigned integer expected for field " ++ "'" ++ property ++ "'"

/-- A parsed configuration document tree, the serde data model
restricted to the shapes relevant here: text, unsigned integers, and
key/value maps (entry order is document order and keys may repeat,
exactly as a streaming `MapAccess` presents them). -/
inductive Document
  | str (s : String)
  | num (n : Nat)
  | map (entries : List (String × Document))

/-- Structural model of the `serde::de::Error` values the deserializer
in src/rules/mod.rs can produce: `duplicate_field`, `missing_field`,
`custom`, and the invalid-type errors serde raises when a value has
the wrong shape for the requested type. -/
inductive DecodeError
  | duplicateField (field : String)
  | missingField (field : String)
  | custom (message : String)
  | invalidType (expected : String)
  deriving DecidableEq, Repr

/-- Modelled from the spec: the name constant of the one shipped rule
(`REMOVE_EMPTY_DO_RULE_NAME`, declared in src/rules/empty_do.rs which
is not under src/). The spec only says one rule "removes empty
do-blocks under a specific registered name"; the concrete text of the
constant is irrelevant to every claim, which depend only on exact
matching against it. -/
def REMOVE_EMPTY_DO_RULE_NAME : String := "remove_empty_do"

/-- Modelled from the spec: the `RemoveEmptyDo` rule's private state
(src/rules/empty_do.rs is not under src/). The rule has no
configuration properties; the spec's lifecycle state machine (§4.2,
`Constructed(default)` → `Configured`) is carried explicitly so that
"no `configure` call was made" is observable as `configured = false`. -/
structure RemoveEmptyDo where
  configured : Bool
  deriving DecidableEq, Repr

/-- Modelled from the spec: `RemoveEmptyDo::default()`, the default
construction state (`Constructed(default)`). -/
def RemoveEmptyDo.default : RemoveEmptyDo := ⟨false⟩

/-- A `Box<dyn Rule>`: a rule instance of one of the registered kinds.
The registry ships exactly one kind, `RemoveEmptyDo`. -/
inductive RuleInst
  | removeEmptyDo (state : RemoveEmptyDo)
  deriving DecidableEq, Repr

/-- `Rule::get_name` for each registered kind. Modelled from the spec
for `RemoveEmptyDo` (its impl lives in src/rules/empty_do.rs): a
stable registry-matching identifier. -/
def RuleInst.get_name : RuleInst → String
  | .removeEmptyDo _ => REMOVE_EMPTY_DO_RULE_NAME

/-- `Rule::serialize_to_properties` for each registered kind. Modelled
from the spec for `RemoveEmptyDo`: the properties differing from the
default construction value — none, since the rule has no
configuration properties. -/
def RuleInst.serialize_to_properties : RuleInst → RuleProperties
  | .removeEmptyDo _ => []

/-- `Rule::configure` for each registered kind. Modelled from the spec
for `RemoveEmptyDo`: every key is unknown to it, so any non-empty
property map is rejected with `UnexpectedProperty` on the first key in
iteration order; success moves the instance to the `Configured`
lifecycle state. -/
def RuleInst.configure : RuleInst → RuleProperties → Except RuleConfigurationError RuleInst
  | .removeEmptyDo _, (key, _) :: _ => .error (.UnexpectedProperty key)
  | .removeEmptyDo state, [] => .ok (.removeEmptyDo { state with configured := true })

/-- `get_default_rules` (src/rules/mod.rs, lines 68-72). -/
def get_default_rules : List RuleInst :=
  [.removeEmptyDo RemoveEmptyDo.default]

/-- `impl FromStr for Box<dyn Rule>` (src/rules/mod.rs, lines 74-85):
registry lookup by name, matching the name constant exactly, otherwise
an "invalid rule name" error carrying the offending name. -/
def RuleInst.from_str (string : String) : Except String RuleInst :=
  if string = REMOVE_EMPTY_DO_RULE_NAME then
    .ok (.removeEmptyDo RemoveEmptyDo.default)
  else
    .error ("invalid rule name: " ++ string)

/-- Serialization of a `RulePropertyValue` under `#[serde(untagged)]`
(src/rules/mod.rs, lines 18-23): the bare string or the bare number. -/
def RulePropertyValue.serialize : RulePropertyValue → Document
  | .string s => .str s
  | .usize n => .num n

/-- `impl Serialize for Box<dyn Rule>` (src/rules/mod.rs, lines
87-108), as a function of the two observables it reads from the rule:
its name and its serialized properties (in the property map's
iteration order). With no properties it is the bare name string;
otherwise a map with the `"rule"` entry first followed by one entry
per property. -/
def serializeRule (rule_name : String) (properties : RuleProperties) : Document :=
  if properties.length = 0 then
    .str rule_name
  else
    .map (("rule", .str rule_name) ::
      properties.map (fun p => (p.1, p.2.serialize)))

/-- Encoding of a rule instance: `Serialize` applied to its observable
name and properties. -/
def encodeRule (rule : RuleInst) : Document :=
  serializeRule rule.get_name rule.serialize_to_properties

/-- `map.next_value::<String>()`: the value must be text. -/
def Document.asString : Document → Except DecodeError String
  | .str s => .ok s
  | _ => .error (.invalidType "a string")

/-- `map.next_value::<RulePropertyValue>()`: untagged deserialization,
text or unsigned integer; anything else fails with a type error. -/
def Document.asPropertyValue : Document → Except DecodeError RulePropertyValue
  | .str s => .ok (.string s)
  | .num n => .ok (.usize n)
  | .map _ => .error (.invalidType "string or unsigned integer")

/-- The `while let Some(key) = map.next_key()` loop of `visit_map`
(src/rules/mod.rs, lines 126-157) together with its epilogue: entries
are consumed in document order; the first `"rule"` key stores the rule
name (its value must be text) and a second one is a duplicate-field
error; any other key is decoded as a property value and inserted,
a repeated key being a custom duplicate error; at the end the name is
looked up (missing-field error if never seen) and `configure` is
called with the collected properties, each failure surfaced through
`de::Error::custom`. -/
def visitMapLoop :
    List (String × Document) → Option String → RuleProperties →
    Except DecodeError RuleInst
  | [], rule_name, properties =>
    match rule_name with
    | some name =>
      match RuleInst.from_str name with
      | .error message => .error (.custom message)
      | .ok rule =>
        match rule.configure properties with
        | .error e => .error (.custom e.display)
        | .ok rule => .ok rule
    | none => .error (.missingField "rule")
  | (key, value) :: rest, rule_name, properties =>
    if key = "rule" then
      match rule_name with
      | none =>
        match value.asString with
        | .error e => .error e
        | .ok name => visitMapLoop rest (some name) properties
      | some _ => .error (.duplicateField "rule")
    else
      match value.asPropertyValue with
      | .error e => .error e
      | .ok propertyValue =>
        if (properties.lookup key).isSome then
          .error (.custom ("duplicate field " ++ key ++ " in rule object"))
        else
          visitMapLoop rest rule_name (properties ++ [(key, propertyValue)])

/-- `impl Deserialize for Box<dyn Rule>` (src/rules/mod.rs, lines
110-162): `deserialize_any` with the `StringOrStruct` visitor. A text
document goes through `visit_str` (registry lookup, errors mapped with
`de::Error::custom`); a map document goes through `visit_map`; any
other shape hits the visitor's default invalid-type error with its
`expecting` message. -/
def decodeRule : Document → Except DecodeError RuleInst
  | .str s =>
    match RuleInst.from_str s with
    | .error message => .error (.custom message)
    | .ok rule => .ok rule
  | .num _ => .error (.invalidType "rule name or rule object")
  | .map entries => visitMapLoop entries none []

/-- The duplicate-field error `visit_map` produces for a repeated key:
`de::Error::duplicate_field("rule")` for the `"rule"` key, the custom
message of src/rules/mod.rs line 141 for any other key. -/
def dupError (key : String) : DecodeError :=
  if key = "rule" then .duplicateField "rule"
  else .custom ("duplicate field " ++ key ++ " in rule object")

/-- A map entry whose value has the right kind for its key: text for
`"rule"`, text or unsigned integer for a property key. -/
def entryConforms (entry : String × Document) : Prop :=
  if entry.1 = "rule" then (entry.2.asString).isOk
  else (entry.2.asPropertyValue).isOk

instance (entry : String × Document) : Decidable (entryConforms entry) := by
  unfold entryConforms
  split <;> infer_instance

/-- The keys the `visit_map` loop state already holds: `"rule"` when
the rule name was seen, plus the keys of the collected properties. -/
def seenKeys (rule_name : Option String) (properties : RuleProperties) : List String :=
  (match rule_name with
   | some _ => ["rule"]
   | none => []) ++ properties.map Prod.fst

/-- The first key of a key sequence whose occurrence repeats an
earlier one (`seen` holds the keys already passed), `none` when all
keys are distinct: the key at which `visit_map` raises its
duplicate-field error. -/
def firstRepeated : List String → List String → Option String
  | [], _ => none
  | key :: rest, seen =>
    if key ∈ seen then some key else firstRepeated rest (key :: seen)

/-- A character that can belong to a name or number token of the
generated source; two adjacent such characters would merge into one
token, so the generator must separate them. -/
def isNameChar (c : Char) : Bool :=
  c.isAlphanum || c = '_'

/-- Modelled from the spec: the code-generation context
(`LuaGenerator`, src/lua_generator.rs, not under src/): it "tracks
accumulated text and any separator/spacing state" (§4.1). The
accumulated output is kept as its character sequence. -/
structure LuaGenerator where
  output : List Char
  deriving DecidableEq, Repr

/-- Modelled from the spec: a fresh generator with empty output. -/
def LuaGenerator.new : LuaGenerator := ⟨[]⟩

/-- Whether the generator must emit a space before appending text
starting with `c`: exactly when the accumulated output ends in a
name character and `c` is one too (compact output, §4.1: rendering
inserts no other spacing — `local var=false` has no spaces around
`=`). -/
def LuaGenerator.spaceNeeded (g : LuaGenerator) (c : Char) : Bool :=
  match g.output.getLast? with
  | some lastChar => isNameChar lastChar && isNameChar c
  | none => false

/-- Modelled from the spec: `LuaGenerator::push_str` appends the text
to the output, preceded by a single space only when the previous token
would otherwise merge with it. -/
def LuaGenerator.push_str (g : LuaGenerator) (content : String) : LuaGenerator :=
  match content.data with
  | [] => g
  | c :: _ =>
    ⟨g.output ++ (if g.spaceNeeded c then [' '] else []) ++ content.data⟩

/-- Modelled from the spec: `LuaGenerator::push_char`, the same for a
single character. -/
def LuaGenerator.push_char (g : LuaGenerator) (c : Char) : LuaGenerator :=
  ⟨g.output ++ (if g.spaceNeeded c then [' '] else []) ++ [c]⟩

/-- Modelled from the spec: `LuaGenerator::for_each_and_between`
(§4.1): "render each element; between any two consecutive elements,
render exactly one separator; never before the first or after the
last." -/
def LuaGenerator.for_each_and_between {α : Type}
    (g : LuaGenerator) (elements : List α)
    (renderElement : LuaGenerator → α → LuaGenerator)
    (renderBetween : LuaGenerator → LuaGenerator) : LuaGenerator :=
  match elements with
  | [] => g
  | first :: rest =>
    rest.foldl (fun acc element => renderElement (renderBetween acc) element)
      (renderElement g first)

/-- Modelled from the spec: the `Expression` node kind (its file is
not under src/), restricted to the literal variants the claims
exercise; a closed set of variants (§3). -/
inductive Expression
  | false_
  | true_
  | nil
  deriving DecidableEq, Repr

/-- Modelled from the spec: the source text of a literal expression. -/
def Expression.literal : Expression → String
  | .false_ => "false"
  | .true_ => "true"
  | .nil => "nil"

/-- Modelled from the spec: `ToLua` for `Expression`: a literal
renders as its keyword token. -/
def Expression.to_lua (e : Expression) (g : LuaGenerator) : LuaGenerator :=
  g.push_str e.literal

/-- `struct LocalAssignStatement`
(src/nodes/statements/local_assign.rs, lines 4-8). -/
structure LocalAssignStatement where
  vars : List String
  values : List Expression
  deriving DecidableEq, Repr

/-- `LocalAssignStatement::new` (local_assign.rs, lines 11-16). -/
def LocalAssignStatement.new (vars : List String) (values : List Expression) :
    LocalAssignStatement :=
  ⟨vars, values⟩

/-- `LocalAssignStatement::from_variable` (local_assign.rs, lines
18-23). -/
def LocalAssignStatement.from_variable (v : String) : LocalAssignStatement :=
  ⟨[v], []⟩

/-- `LocalAssignStatement::with_variable` (local_assign.rs, lines
25-28). -/
def LocalAssignStatement.with_variable (s : LocalAssignStatement) (v : String) :
    LocalAssignStatement :=
  { s with vars := s.vars ++ [v] }

/-- `LocalAssignStatement::with_value` (local_assign.rs, lines
30-33). -/
def LocalAssignStatement.with_value (s : LocalAssignStatement) (value : Expression) :
    LocalAssignStatement :=
  { s with values := s.values ++ [value] }

/-- `impl ToLua for LocalAssignStatement`
(src/nodes/statements/local_assign.rs, lines 48-68): keyword, the
variables comma-separated, then — only when there is at least one
value — the `=` token and the values comma-separated. -/
def LocalAssignStatement.to_lua (s : LocalAssignStatement) (g : LuaGenerator) :
    LuaGenerator :=
  let g := g.push_str "local"
  let g := g.for_each_and_between s.vars
    (fun g v => g.push_str v)
    (fun g => g.push_char ',')
  let g := if s.values.length > 0 then g.push_char '=' else g
  g.for_each_and_between s.values
    (fun g expression => expression.to_lua g)
    (fun g => g.push_char ',')

/-- Modelled from the spec: `ToLua::to_lua_string`, rendering on a
fresh generator and returning the accumulated text. -/
def LocalAssignStatement.to_lua_string (s : LocalAssignStatement) : String :=
  String.mk (s.to_lua LuaGenerator.new).output

/-- The character sequence of a list of strings joined by a single
separator character between consecutive elements, none before the
first or after the last. -/
def sepJoin (sep : Char) : List String → List Char
  | [] => []
  | first :: rest => first.data ++ rest.flatMap (fun s => sep :: s.data)

/-- A well-formed variable name: non-empty and made of name
characters only. -/
def wfName (s : String) : Prop :=
  s.data ≠ [] ∧ ∀ c ∈ s.data, isNameChar c

instance (s : String) : Decidable (wfName s) := by
  unfold wfName
  infer_instance

/-! ## Helper lemmas about the deserializer loop -/

/-- A lookup in the collected property map succeeds exactly when the
key is among the collected keys. -/
theorem lookup_isSome_iff (key : String) (properties : RuleProperties) :
    (properties.lookup key).isSome = true ↔ key ∈ properties.map Prod.fst := by
  induction properties with
  | nil => simp [List.lookup]
  | cons head tail ih =>
    obtain ⟨k, v⟩ := head
    by_cases hk : key = k
    · subst hk
      simp [List.lookup]
    · have hbeq : (key == k) = false := by simp [hk]
      simp only [List.lookup, hbeq, List.map_cons, List.mem_cons]
      rw [ih]
      constructor
      · exact Or.inr
      · rintro (h | h)
        · exact absurd h hk
        · exact h

/-- A conforming non-`"rule"` entry carries a decodable property
value. -/
theorem exists_propertyValue_of_conforms {key : String} {value : Document}
    (hkey : key ≠ "rule") (h : entryConforms (key, value)) :
    ∃ pv, value.asPropertyValue = .ok pv := by
  unfold entryConforms at h
  rw [if_neg hkey] at h
  cases hpv : value.asPropertyValue with
  | ok pv => exact ⟨pv, rfl⟩
  | error e => rw [hpv] at h; simp [Except.isOk, Except.toBool] at h

/-- A conforming `"rule"` entry carries a text value. -/
theorem exists_string_of_conforms {value : Document}
    (h : entryConforms ("rule", value)) :
    ∃ s, value = Document.str s := by
  unfold entryConforms at h
  rw [if_pos rfl] at h
  cases value with
  | str s => exact ⟨s, rfl⟩
  | num n => simp [Document.asString, Except.isOk, Except.toBool] at h
  | map entries => simp [Document.asString, Except.isOk, Except.toBool] at h

/-- If the remaining entries never use the key `"rule"`, their values
decode as property values, and no key repeats (against the collected
properties either), the loop without a stored rule name ends in the
missing-field error. -/
theorem visitMapLoop_no_rule_key (entries : List (String × Document)) :
    ∀ properties : RuleProperties,
      (∀ e ∈ entries, e.1 ≠ "rule" ∧ (e.2.asPropertyValue).isOk = true) →
      (properties.map Prod.fst ++ entries.map Prod.fst).Nodup →
      visitMapLoop entries none properties = .error (.missingField "rule") := by
  induction entries with
  | nil => intro properties _ _; rfl
  | cons head rest ih =>
    obtain ⟨key, value⟩ := head
    intro properties hconf hnodup
    obtain ⟨hkey, hok⟩ := hconf _ (List.mem_cons_self _ _)
    obtain ⟨pv, hpv⟩ : ∃ pv, value.asPropertyValue = .ok pv := by
      cases hv : value.asPropertyValue with
      | ok pv => exact ⟨pv, rfl⟩
      | error e => rw [hv] at hok; simp [Except.isOk, Except.toBool] at hok
    have hmem : key ∉ properties.map Prod.fst := by
      rw [List.nodup_append] at hnodup
      exact fun hin => hnodup.2.2 hin (by simp)
    have hlook : (properties.lookup key).isSome = false := by
      rw [Bool.eq_false_iff]
      exact fun hsome => hmem ((lookup_isSome_iff _ _).mp hsome)
    simp only [visitMapLoop, if_neg hkey, hpv, hlook]
    simp only [Bool.false_eq_true, if_false]
    apply ih
    · exact fun e he => hconf e (List.mem_cons_of_mem _ he)
    · simpa [List.append_assoc] using hnodup

/-- If the remaining entries are clean as above and the stored rule
name fails registry lookup, the loop surfaces the lookup error through
`de::Error::custom` (the `configure` call is never reached). -/
theorem visitMapLoop_unknown_name (entries : List (String × Document)) :
    ∀ (properties : RuleProperties) (name message : String),
      (∀ e ∈ entries, e.1 ≠ "rule" ∧ (e.2.asPropertyValue).isOk = true) →
      (properties.map Prod.fst ++ entries.map Prod.fst).Nodup →
      RuleInst.from_str name = .error message →
      visitMapLoop entries (some name) properties = .error (.custom message) := by
  induction entries with
  | nil =>
    intro properties name message _ _ herr
    simp [visitMapLoop, herr]
  | cons head rest ih =>
    obtain ⟨key, value⟩ := head
    intro properties name message hconf hnodup herr
    obtain ⟨hkey, hok⟩ := hconf _ (List.mem_cons_self _ _)
    obtain ⟨pv, hpv⟩ : ∃ pv, value.asPropertyValue = .ok pv := by
      cases hv : value.asPropertyValue with
      | ok pv => exact ⟨pv, rfl⟩
      | error e => rw [hv] at hok; simp [Except.isOk, Except.toBool] at hok
    have hmem : key ∉ properties.map Prod.fst := by
      rw [List.nodup_append] at hnodup
      exact fun hin => hnodup.2.2 hin (by simp)
    have hlook : (properties.lookup key).isSome = false := by
      rw [Bool.eq_false_iff]
      exact fun hsome => hmem ((lookup_isSome_iff _ _).mp hsome)
    simp only [visitMapLoop, if_neg hkey, hpv, hlook]
    simp only [Bool.false_eq_true, if_false]
    apply ih
    · exact fun e he => hconf e (List.mem_cons_of_mem _ he)
    · simpa [List.append_assoc] using hnodup
    · exact herr

/-- A key sequence containing a key already seen has a first repeated
key. -/
theorem firstRepeated_isSome_of_mem (keys : List String) :
    ∀ (seen : List String) (k : String), k ∈ keys → k ∈ seen →
      (firstRepeated keys seen).isSome = true := by
  induction keys with
  | nil => intro seen k hk _; exact absurd hk (List.not_mem_nil k)
  | cons head rest ih =>
    intro seen k hk hseen
    by_cases hmem : head ∈ seen
    · simp [firstRepeated, hmem]
    · rw [firstRepeated, if_neg hmem]
      rcases List.mem_cons.mp hk with rfl | hk'
      · exact absurd hseen hmem
      · exact ih (head :: seen) k hk' (List.mem_cons_of_mem _ hseen)

/-- A key sequence that is not duplicate-free has a first repeated
key. -/
theorem firstRepeated_isSome_of_not_nodup (keys : List String) :
    ∀ seen : List String, ¬ keys.Nodup → (firstRepeated keys seen).isSome = true := by
  induction keys with
  | nil => intro seen h; exact absurd List.nodup_nil h
  | cons head rest ih =>
    intro seen h
    by_cases hmem : head ∈ seen
    · simp [firstRepeated, hmem]
    · rw [firstRepeated, if_neg hmem]
      rw [List.nodup_cons] at h
      rcases not_and_or.mp h with h' | h'
      · exact firstRepeated_isSome_of_mem rest (head :: seen) head
          (not_not.mp h') (List.mem_cons_self _ _)
      · exact ih (head :: seen) h'

/-- The first repeated key occurs at least twice across the remaining
keys and the keys already seen. -/
theorem firstRepeated_count (keys : List String) :
    ∀ (seen : List String) (key : String), firstRepeated keys seen = some key →
      2 ≤ keys.count key + seen.count key := by
  induction keys with
  | nil => intro seen key h; simp [firstRepeated] at h
  | cons head rest ih =>
    intro seen key h
    rw [firstRepeated] at h
    by_cases hmem : head ∈ seen
    · rw [if_pos hmem] at h
      obtain rfl : head = key := Option.some.inj h
      have h1 : 0 < seen.count head := List.count_pos_iff.mpr hmem
      have h3 : (head :: rest).count head = rest.count head + 1 := by
        simp [List.count_cons]
      omega
    · rw [if_neg hmem] at h
      have := ih (head :: seen) key h
      by_cases hk : key = head
      · subst hk
        simp only [List.count_cons_self] at this ⊢
        omega
      · have e1 : (head :: rest).count key = rest.count key := by
          simp [List.count_cons, hk]
        have e2 : (head :: seen).count key = seen.count key := by
          simp [List.count_cons, hk]
        rw [e1]
        rw [e2] at this
        omega

/-- The `visit_map` loop, run on conforming entries from a state whose
seen keys are exactly `seen`, stops with the duplicate-field error of
the first repeated key. -/
theorem visitMapLoop_duplicate (entries : List (String × Document)) :
    ∀ (rule_name : Option String) (properties : RuleProperties) (seen : List String)
      (key : String),
      (∀ e ∈ entries, entryConforms e) →
      "rule" ∉ properties.map Prod.fst →
      (∀ x, x ∈ seen ↔ x ∈ seenKeys rule_name properties) →
      firstRepeated (entries.map Prod.fst) seen = some key →
      visitMapLoop entries rule_name properties = .error (dupError key) := by
  induction entries with
  | nil =>
    intro rule_name properties seen key _ _ _ hfr
    simp [firstRepeated] at hfr
  | cons head rest ih =>
    obtain ⟨k, v⟩ := head
    intro rule_name properties seen key hconf hrule hseen hfr
    simp only [List.map_cons] at hfr
    rw [firstRepeated] at hfr
    have hconf1 := hconf _ (List.mem_cons_self _ _)
    have hconfrest : ∀ e ∈ rest, entryConforms e :=
      fun e he => hconf e (List.mem_cons_of_mem _ he)
    by_cases hmem : k ∈ seen
    · rw [if_pos hmem] at hfr
      obtain rfl : k = key := Option.some.inj hfr
      have hk' : k ∈ seenKeys rule_name properties := (hseen k).mp hmem
      by_cases hkr : k = "rule"
      · subst hkr
        cases rule_name with
        | none =>
          exfalso
          simp only [seenKeys, List.nil_append] at hk'
          exact hrule hk'
        | some n =>
          simp [visitMapLoop, dupError]
      · obtain ⟨pv, hpv⟩ := exists_propertyValue_of_conforms hkr hconf1
        have hkp : k ∈ properties.map Prod.fst := by
          cases rule_name with
          | none =>
            simpa only [seenKeys, List.nil_append] using hk'
          | some n =>
            simp only [seenKeys, List.singleton_append, List.mem_cons] at hk'
            rcases hk' with h | h
            · exact absurd h hkr
            · exact h
        have hlook : (properties.lookup k).isSome = true := (lookup_isSome_iff _ _).mpr hkp
        simp [visitMapLoop, hkr, hpv, hlook, dupError]
    · rw [if_neg hmem] at hfr
      by_cases hkr : k = "rule"
      · subst hkr
        obtain ⟨s, rfl⟩ := exists_string_of_conforms hconf1
        have hrn : rule_name = none := by
          cases hrn' : rule_name with
          | none => rfl
          | some n =>
            exfalso
            exact hmem ((hseen "rule").mpr (by simp [seenKeys, hrn']))
        subst hrn
        simp only [visitMapLoop, if_pos rfl, Document.asString]
        apply ih (some s) properties ("rule" :: seen) key hconfrest hrule _ hfr
        intro x
        rw [List.mem_cons, hseen x]
        simp [seenKeys]
      · obtain ⟨pv, hpv⟩ := exists_propertyValue_of_conforms hkr hconf1
        have hkp : k ∉ properties.map Prod.fst := by
          intro h
          apply hmem
          apply (hseen k).mpr
          cases rule_name with
          | none => simpa only [seenKeys, List.nil_append] using h
          | some n =>
            simp only [seenKeys, List.singleton_append, List.mem_cons]
            exact Or.inr h
        have hlook : (properties.lookup k).isSome = false := by
          rw [Bool.eq_false_iff]
          exact fun hsome => hkp ((lookup_isSome_iff _ _).mp hsome)
        simp only [visitMapLoop, if_neg hkr, hpv, hlook]
        simp only [Bool.false_eq_true, if_false]
        apply ih rule_name (properties ++ [(k, pv)]) (k :: seen) key hconfrest _ _ hfr
        · simp only [List.map_append, List.map_cons, List.map_nil]
          intro h
          rcases List.mem_append.mp h with h' | h'
          · exact hrule h'
          · simp at h'
            exact hkr h'.symm
        · intro x
          rw [List.mem_cons, hseen x]
          cases rule_name with
          | none => simp [seenKeys, or_comm]
          | some n =>
            simp [seenKeys]
            tauto

/-! ## Helper lemmas about the code generator -/

/-- No space is inserted before a character that cannot merge with a
name token. -/
theorem spaceNeeded_not_nameChar (g : LuaGenerator) (c : Char)
    (hc : isNameChar c = false) : g.spaceNeeded c = false := by
  unfold LuaGenerator.spaceNeeded
  cases g.output.getLast? with
  | none => rfl
  | some l => simp [hc]

/-- The space decision is determined by the last output character. -/
theorem spaceNeeded_of_last (g : LuaGenerator) (c l : Char)
    (h : g.output.getLast? = some l) :
    g.spaceNeeded c = (isNameChar l && isNameChar c) := by
  unfold LuaGenerator.spaceNeeded
  rw [h]

/-- Pushing a non-name character appends exactly that character. -/
theorem push_char_output_not_name (g : LuaGenerator) (c : Char)
    (hc : isNameChar c = false) :
    (g.push_char c).output = g.output ++ [c] := by
  unfold LuaGenerator.push_char
  rw [spaceNeeded_not_nameChar g c hc]
  simp

/-- Unfolding equation of `push_str` for non-empty content. -/
theorem push_str_eq (g : LuaGenerator) (s : String) (c : Char) (cs : List Char)
    (hd : s.data = c :: cs) :
    g.push_str s =
      ⟨g.output ++ (if g.spaceNeeded c then [' '] else []) ++ s.data⟩ := by
  unfold LuaGenerator.push_str
  rw [hd]

/-- Pushing a string when the output ends in a non-name character
appends exactly the string's characters. -/
theorem push_str_output_after_sep (g : LuaGenerator) (s : String) (l : Char)
    (hl : g.output.getLast? = some l) (hln : isNameChar l = false) :
    (g.push_str s).output = g.output ++ s.data := by
  cases hd : s.data with
  | nil =>
    unfold LuaGenerator.push_str
    simp [hd]
  | cons c cs =>
    rw [push_str_eq g s c cs hd, spaceNeeded_of_last g c l hl, hln]
    simp [hd]

/-- Pushing a well-formed name when the output ends in a name
character appends a single separating space and then the name. -/
theorem push_str_output_after_name (g : LuaGenerator) (s : String) (l : Char)
    (hl : g.output.getLast? = some l) (hln : isNameChar l = true)
    (hwf : wfName s) :
    (g.push_str s).output = g.output ++ ' ' :: s.data := by
  obtain ⟨hne, hchars⟩ := hwf
  cases hd : s.data with
  | nil => exact absurd hd hne
  | cons c cs =>
    have hc : isNameChar c = true := hchars c (by rw [hd]; exact List.mem_cons_self c cs)
    rw [push_str_eq g s c cs hd, spaceNeeded_of_last g c l hl, hln, hc]
    simp [hd]

/-- After the first element, the element/separator fold appends a
comma and then each element's characters, with no extra spacing. -/
theorem comma_fold_output (vs : List String) :
    ∀ g : LuaGenerator, (∀ v ∈ vs, wfName v) →
      (vs.foldl (fun acc v => (acc.push_char ',').push_str v) g).output =
        g.output ++ vs.flatMap (fun v => ',' :: v.data) := by
  induction vs with
  | nil => intro g _; simp
  | cons v rest ih =>
    intro g hwf
    have hcomma : (g.push_char ',').output = g.output ++ [','] :=
      push_char_output_not_name g ',' (by decide)
    have hlast : (g.push_char ',').output.getLast? = some ',' := by
      rw [hcomma]
      exact List.getLast?_concat _
    have hstep : ((g.push_char ',').push_str v).output = g.output ++ ',' :: v.data := by
      rw [push_str_output_after_sep _ v ',' hlast (by decide), hcomma]
      simp
    rw [List.foldl_cons, ih _ (fun u hu => hwf u (List.mem_cons_of_mem _ hu)), hstep]
    simp

/-- Every expression literal is a well-formed name token. -/
theorem wfName_literal (e : Expression) : wfName e.literal := by
  cases e <;> decide

/-- Rendering the variable list from a generator whose output ends in
a name character: one separating space, then the variables joined by
single commas, none leading or trailing. -/
theorem vars_stage_output (g : LuaGenerator) (l : Char) (vars : List String)
    (hl : g.output.getLast? = some l) (hn : isNameChar l = true)
    (hwf : ∀ v ∈ vars, wfName v) :
    (g.for_each_and_between vars (fun g v => g.push_str v)
      (fun g => g.push_char ',')).output =
    g.output ++ (if vars.isEmpty then [] else ' ' :: sepJoin ',' vars) := by
  cases vars with
  | nil => simp [LuaGenerator.for_each_and_between]
  | cons v vs =>
    simp only [LuaGenerator.for_each_and_between]
    have hfirst : g.push_str v = ⟨g.output ++ ' ' :: v.data⟩ := by
      calc g.push_str v = ⟨(g.push_str v).output⟩ := rfl
        _ = ⟨g.output ++ ' ' :: v.data⟩ := by
            rw [push_str_output_after_name g v l hl hn (hwf v (List.mem_cons_self v vs))]
    rw [hfirst, comma_fold_output vs _ (fun u hu => hwf u (List.mem_cons_of_mem _ hu))]
    simp [sepJoin]

/-- Rendering the `=` token and the value list from an arbitrary
generator: nothing at all when there are no values, otherwise `=`
followed by the value literals joined by single commas. -/
theorem values_stage_output (g : LuaGenerator) (values : List Expression) :
    ((if values.length > 0 then g.push_char '=' else g).for_each_and_between values
      (fun g e => e.to_lua g) (fun g => g.push_char ',')).output =
    g.output ++
      (if values.isEmpty then []
       else '=' :: sepJoin ',' (values.map Expression.literal)) := by
  cases values with
  | nil => simp [LuaGenerator.for_each_and_between]
  | cons e es =>
    simp only [List.length_cons, gt_iff_lt, Nat.succ_pos, if_true, List.isEmpty_cons,
      Bool.false_eq_true, if_false]
    have heq : g.push_char '=' = ⟨g.output ++ ['=']⟩ := by
      calc g.push_char '=' = ⟨(g.push_char '=').output⟩ := rfl
        _ = ⟨g.output ++ ['=']⟩ := by rw [push_char_output_not_name g '=' (by decide)]
    simp only [LuaGenerator.for_each_and_between]
    rw [heq]
    have hfirst : Expression.to_lua e ⟨g.output ++ ['=']⟩ =
        ⟨(g.output ++ ['=']) ++ e.literal.data⟩ := by
      calc Expression.to_lua e ⟨g.output ++ ['=']⟩
          = ⟨(Expression.to_lua e ⟨g.output ++ ['=']⟩).output⟩ := rfl
        _ = ⟨(g.output ++ ['=']) ++ e.literal.data⟩ := by
            rw [Expression.to_lua,
              push_str_output_after_sep _ _ '=' (List.getLast?_concat _) (by decide)]
    rw [hfirst]
    simp only [Expression.to_lua]
    rw [← List.foldl_map Expression.literal
      (fun acc v => (acc.push_char ',').push_str v) es
      (⟨g.output ++ ['='] ++ e.literal.data⟩ : LuaGenerator)]
    rw [comma_fold_output (es.map Expression.literal) _
      (fun u hu => by
        obtain ⟨e2, _, rfl⟩ := List.mem_map.mp hu
        exact wfName_literal e2)]
    simp [sepJoin]

/-- Full characterization of `LocalAssignStatement` rendering on a
fresh generator, for well-formed variable names: the keyword, a space,
the variables joined by single commas, and — exactly when values are
present — the `=` token followed by the value literals joined by
single commas. -/
theorem to_lua_output (vars : List String) (values : List Expression)
    (hwf : ∀ v ∈ vars, wfName v) :
    ((LocalAssignStatement.mk vars values).to_lua LuaGenerator.new).output =
      "local".data ++
      (if vars.isEmpty then [] else ' ' :: sepJoin ',' vars) ++
      (if values.isEmpty then []
       else '=' :: sepJoin ',' (values.map Expression.literal)) := by
  unfold LocalAssignStatement.to_lua
  rw [values_stage_output, vars_stage_output _ 'l' vars (by decide) (by decide) hwf]
  have hlocal : (LuaGenerator.new.push_str "local").output = "local".data := by decide
  rw [hlocal]

/-- A character of a separator-joined list is the separator or a
character of one of the elements. -/
theorem mem_sepJoin {c sep : Char} {l : List String} (h : c ∈ sepJoin sep l) :
    c = sep ∨ ∃ s ∈ l, c ∈ s.data := by
  cases l with
  | nil => simp [sepJoin] at h
  | cons first rest =>
    unfold sepJoin at h
    rcases List.mem_append.mp h with h1 | h1
    · exact Or.inr ⟨first, List.mem_cons_self first rest, h1⟩
    · obtain ⟨s, hs, hcs⟩ := List.mem_flatMap.mp h1
      rcases List.mem_cons.mp hcs with rfl | hcs'
      · exact Or.inl rfl
      · exact Or.inr ⟨s, List.mem_cons_of_mem _ hs, hcs'⟩

/-! ## Claim theorems -/

/-- C1. Round trip: decoding the document produced by encoding any
rule instance yields an instance observably equivalent to it — same
`get_name()` and same `serialize_to_properties()` output. -/
theorem rule_roundtrip (r : RuleInst) :
    ∃ r2 : RuleInst, decodeRule (encodeRule r) = .ok r2 ∧
      r2.get_name = r.get_name ∧
      r2.serialize_to_properties = r.serialize_to_properties := by
  cases r with
  | removeEmptyDo state => exact ⟨.removeEmptyDo RemoveEmptyDo.default, rfl, rfl, rfl⟩

/-- C2. Encoding with no serialized properties produces exactly the
bare rule name; with at least one property it produces exactly the map
holding the reserved `"rule"` entry bound to the name plus one entry
per serialized property, and nothing else. -/
theorem serialize_compact_and_verbose (rule_name : String) (properties : RuleProperties) :
    (properties = [] → serializeRule rule_name properties = .str rule_name) ∧
    (properties ≠ [] → serializeRule rule_name properties =
      .map (("rule", .str rule_name) ::
        properties.map (fun p => (p.1, p.2.serialize)))) := by
  constructor
  · intro h; subst h; rfl
  · intro h
    unfold serializeRule
    rw [if_neg (fun hl => h (List.length_eq_zero.mp hl))]

/-- Witness for C2 at a concrete empty and non-empty property map. -/
theorem serialize_compact_and_verbose_witness :
    serializeRule "remove_empty_do" [] = .str "remove_empty_do" ∧
    serializeRule "x" [("property", RulePropertyValue.usize 1)] =
      .map (("rule", .str "x") ::
        [("property", RulePropertyValue.usize 1)].map (fun p => (p.1, p.2.serialize))) :=
  ⟨(serialize_compact_and_verbose "remove_empty_do" []).1 rfl,
   (serialize_compact_and_verbose "x" [("property", RulePropertyValue.usize 1)]).2
     (by decide)⟩

/-- C3 counterexample: a map document whose `"rule"` key appears twice
but whose first `"rule"` value is a number fails with an invalid-type
error, not with the duplicate-field error the claim requires. -/
theorem duplicate_rule_key_not_always_duplicate_error :
    decodeRule (.map [("rule", Document.num 0), ("rule", Document.str "x")]) =
      .error (.invalidType "a string") ∧
    DecodeError.invalidType "a string" ≠ DecodeError.duplicateField "rule" :=
  ⟨rfl, by decide⟩

/-- C3 (amended). In a map document whose values all have the kind
their key calls for, any repetition of a key makes decoding fail with
the duplicate-field error of the first repeated key — a key occurring
at least twice: `duplicate_field("rule")` for `"rule"`, the custom
duplicate message for any other key. -/
theorem decode_duplicate_field_error :
    (∀ keys : List String, ¬ keys.Nodup → (firstRepeated keys []).isSome = true) ∧
    ∀ (entries : List (String × Document)) (key : String),
      (∀ e ∈ entries, entryConforms e) →
      firstRepeated (entries.map Prod.fst) [] = some key →
      2 ≤ (entries.map Prod.fst).count key ∧
      decodeRule (.map entries) = .error (dupError key) := by
  constructor
  · exact fun keys h => firstRepeated_isSome_of_not_nodup keys [] h
  · intro entries key hconf hfr
    constructor
    · have := firstRepeated_count (entries.map Prod.fst) [] key hfr
      simpa using this
    · unfold decodeRule
      exact visitMapLoop_duplicate entries none [] [] key hconf (by simp)
        (by intro x; simp [seenKeys]) hfr

/-- Witness for C3 (amended) at a concrete conforming map with a
repeated property key. -/
theorem decode_duplicate_field_error_witness :
    2 ≤ ((([("a", Document.num 1), ("b", Document.str "s"),
        ("a", Document.num 2)] : List (String × Document)).map Prod.fst).count "a") ∧
    decodeRule (.map [("a", Document.num 1), ("b", Document.str "s"),
        ("a", Document.num 2)]) = .error (dupError "a") :=
  decode_duplicate_field_error.2
    [("a", Document.num 1), ("b", Document.str "s"), ("a", Document.num 2)] "a"
    (by decide) (by decide)

/-- C4 counterexample: a map document with no `"rule"` key but with a
repeated key fails with the duplicate-field message, not with the
missing-field error the claim requires. -/
theorem no_rule_key_not_always_missing_error :
    decodeRule (.map [("a", Document.num 1), ("a", Document.num 2)]) =
      .error (.custom "duplicate field a in rule object") ∧
    DecodeError.custom "duplicate field a in rule object" ≠
      DecodeError.missingField "rule" :=
  ⟨rfl, by decide⟩

/-- C4 (amended). A map document with no `"rule"` key, pairwise
distinct keys and property-kind values (text or unsigned integer) —
the empty map included — fails with the missing-field error for
`"rule"`. -/
theorem decode_missing_rule_field (entries : List (String × Document))
    (hkeys : ∀ e ∈ entries, e.1 ≠ "rule" ∧ (e.2.asPropertyValue).isOk = true)
    (hnodup : (entries.map Prod.fst).Nodup) :
    decodeRule (.map entries) = .error (.missingField "rule") := by
  unfold decodeRule
  exact visitMapLoop_no_rule_key entries [] hkeys (by simpa using hnodup)

/-- Witness for C4 (amended) at the empty map. -/
theorem decode_missing_rule_field_witness :
    decodeRule (.map []) = .error (.missingField "rule") :=
  decode_missing_rule_field [] (by decide) (by decide)

/-- C5. Registry lookup of an unregistered name fails with the
"invalid rule name" error carrying that name, and so does decoding it
as a bare-name document or as the `"rule"` value of an otherwise
well-formed map document. -/
theorem invalid_rule_name_error (name : String)
    (h : name ≠ REMOVE_EMPTY_DO_RULE_NAME) :
    RuleInst.from_str name = .error ("invalid rule name: " ++ name) ∧
    decodeRule (.str name) = .error (.custom ("invalid rule name: " ++ name)) ∧
    ∀ properties : List (String × Document),
      (∀ e ∈ properties, e.1 ≠ "rule" ∧ (e.2.asPropertyValue).isOk = true) →
      (properties.map Prod.fst).Nodup →
      decodeRule (.map (("rule", Document.str name) :: properties)) =
        .error (.custom ("invalid rule name: " ++ name)) := by
  have hfs : RuleInst.from_str name = .error ("invalid rule name: " ++ name) := by
    unfold RuleInst.from_str
    rw [if_neg h]
  refine ⟨hfs, ?_, ?_⟩
  · simp only [decodeRule, hfs]
  · intro properties hconf hnodup
    unfold decodeRule
    simp only [visitMapLoop, if_pos rfl, Document.asString]
    exact visitMapLoop_unknown_name properties [] name _ hconf (by simpa using hnodup) hfs

/-- Witness for C5 at the concrete unknown name of the spec's test
scenario. -/
theorem invalid_rule_name_error_witness :
    RuleInst.from_str "not_a_real_rule" =
      .error ("invalid rule name: " ++ "not_a_real_rule") ∧
    decodeRule (.str "not_a_real_rule") =
      .error (.custom ("invalid rule name: " ++ "not_a_real_rule")) ∧
    decodeRule (.map [("rule", Document.str "not_a_real_rule")]) =
      .error (.custom ("invalid rule name: " ++ "not_a_real_rule")) :=
  have h := invalid_rule_name_error "not_a_real_rule" (by decide)
  ⟨h.1, h.2.1, h.2.2 [] (by decide) (by decide)⟩

/-- C6. Decoding a bare text document naming a registered rule yields
that rule's default-constructed instance; its lifecycle state is still
the default construction state, i.e. no `configure` call was made. -/
theorem decode_bare_name_default (name : String) (rule : RuleInst)
    (h : RuleInst.from_str name = .ok rule) :
    decodeRule (.str name) = .ok rule ∧
    rule = .removeEmptyDo RemoveEmptyDo.default ∧
    RemoveEmptyDo.default.configured = false := by
  refine ⟨?_, ?_, rfl⟩
  · simp only [decodeRule, h]
  · unfold RuleInst.from_str at h
    by_cases hn : name = REMOVE_EMPTY_DO_RULE_NAME
    · rw [if_pos hn] at h
      exact (Except.ok.inj h).symm
    · rw [if_neg hn] at h
      exact absurd h (by simp)

/-- Witness for C6 at the registered rule name. -/
theorem decode_bare_name_default_witness :
    decodeRule (.str REMOVE_EMPTY_DO_RULE_NAME) =
      .ok (.removeEmptyDo RemoveEmptyDo.default) ∧
    RuleInst.removeEmptyDo RemoveEmptyDo.default =
      .removeEmptyDo RemoveEmptyDo.default ∧
    RemoveEmptyDo.default.configured = false :=
  decode_bare_name_default REMOVE_EMPTY_DO_RULE_NAME
    (.removeEmptyDo RemoveEmptyDo.default) rfl

/-- C9. The default pipeline is non-empty and every rule in it has a
name that resolves in the registry. -/
theorem default_rules_nonempty_and_registered :
    0 < get_default_rules.length ∧
    ∀ rule ∈ get_default_rules, (RuleInst.from_str rule.get_name).isOk = true := by
  refine ⟨by decide, ?_⟩
  intro rule hr
  have hr' : rule = .removeEmptyDo RemoveEmptyDo.default := by
    simpa [get_default_rules] using hr
  subst hr'
  decide

/-- Witness for C9 at the default pipeline's sole member. -/
theorem default_rules_nonempty_and_registered_witness :
    0 < get_default_rules.length ∧
    (RuleInst.from_str
      ((RuleInst.removeEmptyDo RemoveEmptyDo.default).get_name)).isOk = true :=
  ⟨default_rules_nonempty_and_registered.1,
   default_rules_nonempty_and_registered.2 _ (by decide)⟩

/-- C10. The verbose form emits the `"rule"` name entry first, before
every property entry, and holds exactly one entry more than the number
of serialized properties; the property entries follow in the property
map's iteration order. -/
theorem serialize_verbose_shape (rule_name : String) (properties : RuleProperties)
    (h : properties ≠ []) :
    serializeRule rule_name properties =
      .map (("rule", .str rule_name) ::
        properties.map (fun p => (p.1, p.2.serialize))) ∧
    (("rule", Document.str rule_name) ::
      properties.map (fun p => (p.1, p.2.serialize))).head? =
      some ("rule", .str rule_name) ∧
    (("rule", Document.str rule_name) ::
      properties.map (fun p => (p.1, p.2.serialize))).length =
      properties.length + 1 := by
  refine ⟨?_, rfl, by simp⟩
  unfold serializeRule
  rw [if_neg (fun hl => h (List.length_eq_zero.mp hl))]

/-- Witness for C10 at a concrete two-property map. -/
theorem serialize_verbose_shape_witness :
    serializeRule "x" [("a", RulePropertyValue.string "s"), ("b", RulePropertyValue.usize 2)] =
      .map (("rule", .str "x") ::
        [("a", RulePropertyValue.string "s"),
         ("b", RulePropertyValue.usize 2)].map (fun p => (p.1, p.2.serialize))) ∧
    (("rule", Document.str "x") ::
      [("a", RulePropertyValue.string "s"),
       ("b", RulePropertyValue.usize 2)].map (fun p => (p.1, p.2.serialize))).head? =
      some ("rule", .str "x") ∧
    (("rule", Document.str "x") ::
      [("a", RulePropertyValue.string "s"),
       ("b", RulePropertyValue.usize 2)].map (fun p => (p.1, p.2.serialize))).length =
      [("a", RulePropertyValue.string "s"),
       ("b", RulePropertyValue.usize 2)].length + 1 :=
  serialize_verbose_shape "x"
    [("a", RulePropertyValue.string "s"), ("b", RulePropertyValue.usize 2)] (by decide)

/-- C7. Rendering a `LocalAssignStatement` emits the assignment token
exactly when the value sequence is non-empty: the statement built from
variable `"var"` with value `false` renders to exactly
`local var=false`, the statement built from variable `"var"` with zero
values renders to exactly `local var`, and in general the rendered
text contains `=` iff there is at least one value. -/
theorem local_assign_assignment_token_iff :
    ((LocalAssignStatement.from_variable "var").with_value
        Expression.false_).to_lua_string = "local var=false" ∧
    (LocalAssignStatement.from_variable "var").to_lua_string = "local var" ∧
    ∀ s : LocalAssignStatement, (∀ v ∈ s.vars, wfName v) →
      ('=' ∈ (s.to_lua LuaGenerator.new).output ↔ s.values ≠ []) := by
  refine ⟨by decide, by decide, ?_⟩
  intro s hwf
  obtain ⟨vars, values⟩ := s
  rw [to_lua_output vars values hwf]
  constructor
  · intro hmem hval
    have hval2 : values = [] := hval
    rw [hval2] at hmem
    simp only [List.isEmpty_nil, if_true, List.append_nil] at hmem
    rcases List.mem_append.mp hmem with h1 | h1
    · exact absurd h1 (by decide)
    · by_cases hv : vars.isEmpty
      · rw [if_pos hv] at h1
        exact absurd h1 (List.not_mem_nil _)
      · rw [if_neg hv] at h1
        rcases List.mem_cons.mp h1 with h2 | h2
        · exact absurd h2 (by decide)
        · rcases mem_sepJoin h2 with h3 | ⟨v, hvmem, hcmem⟩
          · exact absurd h3 (by decide)
          · exact absurd ((hwf v hvmem).2 '=' hcmem) (by decide)
  · intro hne
    have hne2 : values ≠ [] := hne
    have hemp : values.isEmpty = false := by
      cases values with
      | nil => exact absurd rfl hne2
      | cons _ _ => rfl
    rw [hemp]
    simp

/-- Witness for C7 at the concrete statement with one value. -/
theorem local_assign_assignment_token_iff_witness :
    '=' ∈ (((LocalAssignStatement.from_variable "var").with_value
        Expression.false_).to_lua LuaGenerator.new).output :=
  (local_assign_assignment_token_iff.2.2 _ (by decide)).mpr (by decide)

/-- C8. Both sequence-valued children of a rendered
`LocalAssignStatement` — the variable list and the value list — are
emitted with exactly one comma between consecutive elements and none
before the first or after the last; in particular variables
`"a"`, `"b"` with no values render to exactly `local a,b`. -/
theorem sequence_children_single_separator :
    ((LocalAssignStatement.from_variable "a").with_variable "b").to_lua_string =
      "local a,b" ∧
    ∀ (vars : List String) (values : List Expression),
      (∀ v ∈ vars, wfName v) →
      ((LocalAssignStatement.mk vars values).to_lua LuaGenerator.new).output =
        "local".data ++
        (if vars.isEmpty then [] else ' ' :: sepJoin ',' vars) ++
        (if values.isEmpty then []
         else '=' :: sepJoin ',' (values.map Expression.literal)) :=
  ⟨by decide, to_lua_output⟩

/-- Witness for C8 at a concrete two-variable, two-value statement. -/
theorem sequence_children_single_separator_witness :
    ((LocalAssignStatement.mk ["a", "b"]
        [Expression.false_, Expression.nil]).to_lua LuaGenerator.new).output =
      "local".data ++
      (if (["a", "b"] : List String).isEmpty then []
       else ' ' :: sepJoin ',' ["a", "b"]) ++
      (if ([Expression.false_, Expression.nil] : List Expression).isEmpty then []
       else '=' :: sepJoin ','
         ([Expression.false_, Expression.nil].map Expression.literal)) :=
  sequence_children_single_separator.2 ["a", "b"]
    [Expression.false_, Expression.nil] (by decide)
